import Mathlib

/-!
Formal model of the xBot polling/translation bot (Chester repository).

Python strings are modelled as `List Char` (sequences of Unicode code points,
matching Python 3 `str` indexing, slicing and `len`).  Tweet/mention/account
ids are modelled as `Nat` at the bot layer: every id that reaches a ledger in
`bot.py` is produced by `str(...)` applied to an integer id from the API, and
`str` is injective on integers and produces whitespace-free digit strings.
The byte-accurate string/file layer is modelled separately for the ledger
save operations.

External collaborators (the Twitter API, the OCR engine, the
detection/translation APIs, the Archive.org uploader) are modelled as
deterministic function fields of an environment record; a `none` result
stands for both a falsy return value and a raised-and-caught exception,
exactly where the source catches them.
-/

namespace XBot

/-- Python strings as lists of code points. -/
abbrev Str := List Char

/-- Python whitespace test for the ASCII whitespace characters, as used by
`str.split()`, `str.strip()` and the regex class `\S` in the source. -/
def pyIsSpace (c : Char) : Bool :=
  c == ' ' || c == '\t' || c == '\n' || c == '\r' || c == '\x0b' || c == '\x0c'

/-- Scanner implementing `re.sub(r'http\S+', '', text)` from
`TweetProcessor.clean_tweet_text`.  The Boolean state is true while the
scanner is inside a matched URL (consuming the greedy `\S+`).  A match starts
at the literal characters `http` followed by at least one non-space
character; `http` followed by a space cannot match there, and the emitted
`t`, `t`, `p` characters can never begin a later match, so the scan resumes
at the following character exactly as `re.sub` does. -/
def subHttpAux : Bool → List Char → List Char
  | _, [] => []
  | true, c :: cs => if pyIsSpace c then c :: subHttpAux false cs else subHttpAux true cs
  | false, 'h' :: 't' :: 't' :: 'p' :: c :: cs =>
      if pyIsSpace c then 'h' :: 't' :: 't' :: 'p' :: subHttpAux false (c :: cs)
      else subHttpAux true cs
  | false, c :: cs => c :: subHttpAux false cs

/-- `re.sub(r'http\S+', '', text)`. -/
def subHttp (l : Str) : Str := subHttpAux false l

/-- One step of splitting on whitespace: the head of the accumulator is the
word currently being collected. -/
def splitStep (c : Char) (acc : List (List Char)) : List (List Char) :=
  match acc with
  | [] => []
  | w :: ws => if pyIsSpace c then [] :: w :: ws else (c :: w) :: ws

/-- Raw chunks of a string between whitespace characters (possibly empty). -/
def splitChunks (l : Str) : List (List Char) := l.foldr splitStep [[]]

/-- Python `str.split()` with no argument: split on runs of whitespace and
drop empty pieces. -/
def splitWords (l : Str) : List (List Char) :=
  (splitChunks l).filter (fun w => decide (w ≠ []))

/-- Python `' '.join(words)`. -/
def joinWords : List (List Char) → Str
  | [] => []
  | [w] => w
  | w :: ws => w ++ ' ' :: joinWords ws

/-- `TweetProcessor.clean_tweet_text`: remove `http\S+` matches, then
collapse whitespace via `' '.join(text.split())`. -/
def clean_tweet_text (t : Str) : Str := joinWords (splitWords (subHttp t))

/-- Python `str.strip()` (whitespace from both ends). -/
def pyStrip (l : Str) : Str :=
  ((l.dropWhile pyIsSpace).reverse.dropWhile pyIsSpace).reverse

/-- The API-key normalisation performed by `TranslationService.__init__`
(and, identically, by `TwitterBot.__init__` before constructing the
service): a missing key stays `None`, a key that is empty after stripping
whitespace becomes `None`, otherwise the stripped key is stored. -/
def normalizeKey : Option Str → Option Str
  | none => none
  | some k => if pyStrip k = [] then none else some (pyStrip k)

/-- The text actually passed to the external detection API by
`TranslationService.detect_language`: the cleaned text, with its first 10
words removed whenever the cleaned text has more than 10 words. -/
def detectionText (t : Str) : Str :=
  let cleaned := clean_tweet_text t
  let words := splitWords cleaned
  if 10 < words.length then joinWords (words.drop 10) else cleaned

/-- `TranslationService.detect_language`.  `key` is the stored
`detect_api_key` (already normalised by `__init__`); `detectApi` is the
external `single_detection` call, with `none` covering a raised (and caught)
exception.  The source returns `None` when the stored key is falsy (`None`
or empty) before making the external call. -/
def detect_language (key : Option Str) (detectApi : Str → Option Str) (t : Str) : Option Str :=
  let cleaned := detectionText t
  match key with
  | none => none
  | some k => if k = [] then none else detectApi cleaned

/-- `TweetProcessor.truncate_tweet`: texts at most `maxLength` long are kept,
longer texts are cut to `maxLength - 3` code points with `"..."` appended.
The Python default for `maxLength` is 280. -/
def truncate_tweet (text : Str) (maxLength : Nat) : Str :=
  if text.length ≤ maxLength then text else text.take (maxLength - 3) ++ "...".toList

/-- The repost format string of `TranslationService.prepare_tweet`:
`f"({detected_language} → en):\n\n{translated_text}"`. -/
def formatRepost (lang translated : Str) : Str :=
  "(".toList ++ lang ++ " → en):\n\n".toList ++ translated

/-- `TranslationService.prepare_tweet`: clean, translate (`tr`), and on a
truthy translation format with the language indicator and truncate to 280. -/
def prepare_tweet (tr : Str → Str → Option Str) (originalText lang : Str) : Option Str :=
  let cleaned := clean_tweet_text originalText
  match tr cleaned lang with
  | none => none
  | some t => if t = [] then none else some (truncate_tweet (formatRepost lang t) 280)

/-! ## Ledger file layer

The ledger files are newline-delimited id files.  A file is modelled as
`Option (List Str)`: `none` when the file does not exist, `some lines`
otherwise, where each element is one line's content without its trailing
newline (every write in the source appends exactly `f"{id}\n"`).  Each save
operation is modelled as a pure function from the durable file contents and
the in-memory set to the new contents, the new in-memory set, and the list
of file-system operations it performs, in order. -/

/-- A file-system operation performed by a ledger save. -/
inductive FileOp where
  | writeTmp (lines : List Str)
  | rename
  | append (line : Str)
deriving DecidableEq

/-- Result of a ledger save operation. -/
structure SaveResult where
  fileLines : Option (List Str)
  mem : List Str
  ops : List FileOp
deriving DecidableEq

/-- Durable state: the target ledger file and its temporary sibling. -/
structure FS where
  main : Option (List Str)
  tmp : Option (List Str)
deriving DecidableEq

/-- Effect of one file-system operation on the durable state.  `rename` is
`os.replace(temp_file, target)`; `append` is an `open(..., 'a')` write,
which creates the file when missing. -/
def applyOp (fs : FS) : FileOp → FS
  | FileOp.writeTmp l => { fs with tmp := some l }
  | FileOp.rename => { main := fs.tmp, tmp := none }
  | FileOp.append line => { fs with main := some (fs.main.getD [] ++ [line]) }

def applyOps (fs : FS) (ops : List FileOp) : FS := ops.foldl applyOp fs

/-- `load_processed_mentions` (and the other loaders):
`set(line.strip() for line in f)`, a missing file yielding the empty set. -/
def stripSet (lines : List Str) : List Str := (lines.map pyStrip).dedup

/-- `TwitterBot.save_processed_mention`: skip when the id is already in the
in-memory set, skip when it already strips to an existing file line, and
otherwise write old lines plus the new id to a temporary file, atomically
rename it over the target, and reload the in-memory set from the new file. -/
def save_processed_mention (fileLines : Option (List Str)) (mem : List Str) (idStr : Str) :
    SaveResult :=
  if idStr ∈ mem then ⟨fileLines, mem, []⟩
  else
    match fileLines with
    | some lines =>
      if idStr ∈ lines.map pyStrip then ⟨some lines, mem, []⟩
      else
        ⟨some (lines ++ [idStr]), stripSet (lines ++ [idStr]),
          [FileOp.writeTmp (lines ++ [idStr]), FileOp.rename]⟩
    | none =>
      ⟨some [idStr], stripSet [idStr], [FileOp.writeTmp [idStr], FileOp.rename]⟩

/-- `TwitterBot.save_downloaded_tweet`: a bare append to the ledger file
followed by a set add. -/
def save_downloaded_tweet (fileLines : Option (List Str)) (mem : List Str) (idStr : Str) :
    SaveResult :=
  ⟨some (fileLines.getD [] ++ [idStr]),
   if idStr ∈ mem then mem else mem ++ [idStr],
   [FileOp.append idStr]⟩

/-- `TwitterBot.save_pending_tweet`: a bare append followed by a set add. -/
def save_pending_tweet (fileLines : Option (List Str)) (mem : List Str) (idStr : Str) :
    SaveResult :=
  ⟨some (fileLines.getD [] ++ [idStr]),
   if idStr ∈ mem then mem else mem ++ [idStr],
   [FileOp.append idStr]⟩

/-- `TwitterBot.save_processed_account`: a bare append followed by a set
add. -/
def save_processed_account (fileLines : Option (List Str)) (mem : List Str) (idStr : Str) :
    SaveResult :=
  ⟨some (fileLines.getD [] ++ [idStr]),
   if idStr ∈ mem then mem else mem ++ [idStr],
   [FileOp.append idStr]⟩

/-! ## Twitter client media-URL layer

`TwitterClient.get_media_url` resolves a media URL for a tweet, consulting
and filling `media_url_cache`; `get_cached_media_url` is its
`processed_accounts` shortcut.  The v2 API response is modelled by
`FetchedTweet` with the three media carriers the source scans in order. -/

structure Variant where
  contentType : Str
  bitrate : Option Nat
  url : Str
deriving DecidableEq

structure MediaObj where
  mtype : Str
  url : Str
  variants : List Variant
deriving DecidableEq

structure EntMedia where
  mtype : Str
  mediaUrlHttps : Str
  videoVariants : List Variant
deriving DecidableEq

structure AttMedia where
  mtype : Str
  url : Str
deriving DecidableEq

structure FetchedTweet where
  includesMedia : Option (List MediaObj)
  entitiesMedia : Option (List EntMedia)
  attachments : List AttMedia
deriving DecidableEq

/-- The `video/mp4` variant chosen by the source: filter to
`content_type == 'video/mp4'`, stably sort descending by `bitrate` (missing
treated as 0) and take element 0 — i.e. the first variant attaining the
maximal bitrate.  `none` when there is no mp4 variant (the source's
`if video_variants:` guard fails and the scan moves on). -/
def bestVariantUrl (vs : List Variant) : Option Str :=
  match vs.filter (fun v => decide (v.contentType = "video/mp4".toList)) with
  | [] => none
  | v :: rest =>
    some ((rest.foldl (fun best w =>
      if best.bitrate.getD 0 < w.bitrate.getD 0 then w else best) v).url)

/-- Scan of `tweet.includes['media']`. -/
def scanIncludesMedia : List MediaObj → Option Str
  | [] => none
  | m :: rest =>
    if m.mtype = "photo".toList then some m.url
    else if m.mtype = "video".toList then
      match bestVariantUrl m.variants with
      | some u => some u
      | none => scanIncludesMedia rest
    else scanIncludesMedia rest

/-- Scan of the legacy `tweet.entities['media']` format. -/
def scanEntitiesMedia : List EntMedia → Option Str
  | [] => none
  | m :: rest =>
    if m.mtype = "photo".toList then some m.mediaUrlHttps
    else if m.mtype = "video".toList then
      match bestVariantUrl m.videoVariants with
      | some u => some u
      | none => scanEntitiesMedia rest
    else scanEntitiesMedia rest

/-- Scan of `tweet.attachments` (photo and video both expose `.url`). -/
def scanAttachments : List AttMedia → Option Str
  | [] => none
  | a :: rest =>
    if a.mtype = "photo".toList ∨ a.mtype = "video".toList then some a.url
    else scanAttachments rest

/-- The three fallback scans of `get_media_url`, in source order. -/
def resolveMediaUrl (tw : FetchedTweet) : Option Str :=
  match (match tw.includesMedia with | some l => scanIncludesMedia l | none => none) with
  | some u => some u
  | none =>
    match (match tw.entitiesMedia with | some l => scanEntitiesMedia l | none => none) with
    | some u => some u
    | none => scanAttachments tw.attachments

/-- External fetch performed by `get_media_url`; `none` covers both a falsy
response and a raised-and-caught exception. -/
structure ClientEnv where
  fetchMediaTweet : Nat → Option FetchedTweet

/-- `TwitterClient.get_media_url`: return the cached URL when present,
otherwise fetch the tweet, resolve a URL through the three scans, and cache
it on success. -/
def get_media_url (e : ClientEnv) (cache : List (Nat × Str)) (tid : Nat) :
    Option Str × List (Nat × Str) :=
  match cache.lookup tid with
  | some u => (some u, cache)
  | none =>
    match e.fetchMediaTweet tid with
    | none => (none, cache)
    | some tw =>
      match resolveMediaUrl tw with
      | some u => (some u, cache ++ [(tid, u)])
      | none => (none, cache)

/-- `TwitterClient.get_cached_media_url`: the source body is literally
`return self.get_media_url(tweet_id)`. -/
def get_cached_media_url (e : ClientEnv) (cache : List (Nat × Str)) (tid : Nat) :
    Option Str × List (Nat × Str) :=
  get_media_url e cache tid

/-! ## Bot reconciliation layer

`TwitterBot.process_mention` and the mention phase of `TwitterBot.run`.
Ids are `Nat` (see the header note).  The in-memory ledgers
`processed_mentions` and `processed_accounts` are modelled as lists with
set semantics; `markProcessed` captures the effect of
`save_processed_mention` on the in-memory set for the whitespace-free digit
ids the bot passes (the byte-level behaviour of that save is
`save_processed_mention` above), and `markAccount` likewise captures
`save_processed_account`. -/

structure Ref where
  rtype : Str
  rid : Nat
deriving DecidableEq

structure Mention where
  id : Nat
  referencedTweets : List Ref
deriving DecidableEq

structure Tweet where
  text : Str
  hasAttachments : Bool
  authorId : Nat
deriving DecidableEq

structure BotState where
  processedMentions : List Nat
  processedAccounts : List Nat
deriving DecidableEq

/-- Externally visible publish/reply/archive actions of the bot. -/
inductive Action where
  | archiveUpload (tweetId : Nat)
  | reply (tweetId : Nat) (text : Str)
deriving DecidableEq

/-- The environment of external capabilities seen by `process_mention`,
assumed deterministic over one unchanged candidate set.  `mediaUrl`
abstracts `TwitterClient.get_media_url` (which is extensionally a pure
function of the tweet id thanks to its write-once cache); `ocr` is
`OCRReader.extract_text` with `none` covering an exception or empty result;
`upload` is `ArchiveUploader.upload_translation` returning an archive URL. -/
structure Env where
  getTweet : Nat → Option Tweet
  mediaUrl : Nat → Option Str
  ocr : Str → Option Str
  detectKey : Option Str
  singleDetection : Str → Option Str
  translate : Str → Str → Option Str
  archiveEnabled : Bool
  upload : Nat → Str → Str → Str → Option Str

/-- The first `replied_to` reference of a mention, as in the loop of
`process_mention` (and `_extract_original_tweet_id`). -/
def originalTweetId (m : Mention) : Option Nat :=
  match m.referencedTweets.find? (fun r => decide (r.rtype = "replied_to".toList)) with
  | some r => some r.rid
  | none => none

/-- Effect of `save_processed_mention` on the in-memory set (digit ids). -/
def markProcessed (i : Nat) (s : BotState) : BotState :=
  if i ∈ s.processedMentions then s
  else { s with processedMentions := s.processedMentions ++ [i] }

/-- Effect of `save_processed_account` on the in-memory set. -/
def markAccount (i : Nat) (s : BotState) : BotState :=
  if i ∈ s.processedAccounts then s
  else { s with processedAccounts := s.processedAccounts ++ [i] }

/-- The double save performed on commit:
`save_processed_mention(mention.id)` then
`save_processed_mention(original_tweet_id)`. -/
def commitBoth (mid oid : Nat) (s : BotState) : BotState :=
  markProcessed oid (markProcessed mid s)

/-- The reply posted by `_upload_to_archive` (the source literal contains a
mojibake arrow, transcribed as-is). -/
def replyText (lang url : Str) : Str :=
  "Translation (".toList ++ lang ++ " â†’ en) available at: ".toList ++ url
    ++ ". No downloading required.".toList

/-- `TwitterBot._upload_to_archive`, as the list of external actions it
performs: nothing when archiving is disabled; otherwise an upload attempt,
followed by a reply with the archive link exactly when the upload returned a
URL.  Its Boolean result is returned to the caller — which ignores it. -/
def upload_to_archive (e : Env) (origText transText lang : Str) (tweetId : Nat) :
    List Action :=
  if e.archiveEnabled then
    match e.upload tweetId lang origText transText with
    | some url => [Action.archiveUpload tweetId, Action.reply tweetId (replyText lang url)]
    | none => [Action.archiveUpload tweetId]
  else []

/-- The detection call made by the bot: `self.translator.detect_language`. -/
def detectLang (e : Env) (t : Str) : Option Str :=
  detect_language e.detectKey e.singleDetection t

/-- The text taken from the image branch of `process_mention`: keep the
original text unless a truthy media URL yields truthy OCR output (OCR
exceptions are caught and the original text kept). -/
def imageText (e : Env) (url? : Option Str) (orig : Str) : Str :=
  match url? with
  | none => orig
  | some u =>
    if u = [] then orig
    else
      match e.ocr u with
      | none => orig
      | some t => if t = [] then orig else t

/-- The media/OCR branch of `process_mention`: for tweets with attachments,
authors already in `processed_accounts` go through `get_cached_media_url`
and new authors through `get_media_url` followed by
`save_processed_account`; both URL paths coincide because
`get_cached_media_url` delegates to `get_media_url`. -/
def extractPhase (e : Env) (s : BotState) (tw : Tweet) (oid : Nat) : BotState × Str :=
  if tw.hasAttachments then
    if tw.authorId ∈ s.processedAccounts then
      (s, imageText e (e.mediaUrl oid) tw.text)
    else
      (markAccount tw.authorId s, imageText e (e.mediaUrl oid) tw.text)
  else (s, tw.text)

/-- The text `process_mention` feeds to detection, as a pure function of the
environment and the fetched tweet. -/
def extractedText (e : Env) (tw : Tweet) (oid : Nat) : Str :=
  if tw.hasAttachments then imageText e (e.mediaUrl oid) tw.text else tw.text

/-- `TwitterBot.process_mention`.  Skips mentions whose id is already in
`processed_mentions`; resolves the replied-to original (Python truthiness
makes id 0 fall through silently); skips when the original id is already in
`processed_mentions`; fetches the original tweet; extracts text (media/OCR
branch); detects the language; on a truthy non-English detection translates
and, when the translation is truthy, calls `_upload_to_archive` (return
value ignored) and commits both ids; on a falsy or English detection commits
both ids with no action; otherwise commits nothing. -/
def process_mention (e : Env) (s : BotState) (m : Mention) : BotState × List Action :=
  if m.id ∈ s.processedMentions then (s, [])
  else
    match originalTweetId m with
    | none => (s, [])
    | some oid =>
      if oid = 0 then (s, [])
      else if oid ∈ s.processedMentions then (s, [])
      else
        match e.getTweet oid with
        | none => (s, [])
        | some tw =>
          let p := extractPhase e s tw oid
          match detectLang e p.2 with
          | none => (commitBoth m.id oid p.1, [])
          | some lang =>
            if lang = [] ∨ lang = "en".toList then (commitBoth m.id oid p.1, [])
            else
              match e.translate p.2 lang with
              | none => (p.1, [])
              | some t =>
                if t = [] then (p.1, [])
                else (commitBoth m.id oid p.1, upload_to_archive e p.2 t lang oid)

/-- Sequential processing of a list of mentions
(`for mention in new_mentions: self.process_mention(mention)`),
collecting the actions in order. -/
def process_mentions_list (e : Env) (s : BotState) : List Mention → BotState × List Action
  | [] => (s, [])
  | m :: ms =>
    let r := process_mention e s m
    let rest := process_mentions_list e r.1 ms
    (rest.1, r.2 ++ rest.2)

/-- The mention phase of one `TwitterBot.run` cycle: filter the fetched
mentions against `processed_mentions`, then process each new mention.
(The pending-media retry phase that precedes it touches neither the
candidate mentions nor the claims modelled here.) -/
def run_mentions_cycle (e : Env) (s : BotState) (ms : List Mention) :
    BotState × List Action :=
  process_mentions_list e s (ms.filter (fun m => decide (m.id ∉ s.processedMentions)))

/-- Number of archive-upload actions targeting `oid`. -/
def countArchive (oid : Nat) (acts : List Action) : Nat :=
  (acts.filter (fun a => match a with
    | Action.archiveUpload t => decide (t = oid)
    | _ => false)).length

/-- Number of reply actions targeting `oid`. -/
def countReply (oid : Nat) (acts : List Action) : Nat :=
  (acts.filter (fun a => match a with
    | Action.reply t _ => decide (t = oid)
    | _ => false)).length

/-! ## Lemmas about splitting and joining -/

theorem splitChunks_ne_nil (l : Str) : splitChunks l ≠ [] := by
  induction l with
  | nil => simp [splitChunks]
  | cons c cs ih =>
    have h : splitChunks (c :: cs) = splitStep c (splitChunks cs) := rfl
    rw [h]
    cases hc : splitChunks cs with
    | nil => exact absurd hc ih
    | cons w ws =>
      simp only [splitStep]
      split <;> simp

theorem chunks_nonspace (l : Str) :
    ∀ w ∈ splitChunks l, ∀ c ∈ w, pyIsSpace c = false := by
  induction l with
  | nil =>
    intro w hw c hc
    simp [splitChunks] at hw
    subst hw
    simp at hc
  | cons a as ih =>
    intro w hw c hc
    have h : splitChunks (a :: as) = splitStep a (splitChunks as) := rfl
    rw [h] at hw
    cases hchunks : splitChunks as with
    | nil => exact absurd hchunks (splitChunks_ne_nil as)
    | cons v vs =>
      rw [hchunks] at hw
      simp only [splitStep] at hw
      by_cases hs : pyIsSpace a
      · rw [if_pos hs] at hw
        rcases List.mem_cons.mp hw with rfl | hw'
        · simp at hc
        · exact ih w (hchunks ▸ hw') c hc
      · rw [if_neg hs] at hw
        rcases List.mem_cons.mp hw with rfl | hw'
        · rcases List.mem_cons.mp hc with rfl | hc'
          · exact Bool.eq_false_iff.mpr hs
          · exact ih v (hchunks ▸ List.mem_cons_self v vs) c hc'
        · exact ih w (hchunks ▸ List.mem_cons_of_mem v hw') c hc

theorem splitWords_sound (l : Str) :
    ∀ w ∈ splitWords l, w ≠ [] ∧ ∀ c ∈ w, pyIsSpace c = false := by
  intro w hw
  have h := List.mem_filter.mp hw
  refine ⟨by simpa using h.2, chunks_nonspace l w h.1⟩

theorem splitChunks_append_word (w l : Str) (hw : ∀ c ∈ w, pyIsSpace c = false) :
    ∀ v vs, splitChunks l = v :: vs → splitChunks (w ++ l) = (w ++ v) :: vs := by
  induction w with
  | nil => intro v vs h; simpa using h
  | cons c cs ih =>
    intro v vs h
    have hc : pyIsSpace c = false := hw c (List.mem_cons_self c cs)
    have hcs : ∀ c' ∈ cs, pyIsSpace c' = false :=
      fun c' h' => hw c' (List.mem_cons_of_mem c h')
    have hrec := ih hcs v vs h
    have hstep : splitChunks ((c :: cs) ++ l) = splitStep c (splitChunks (cs ++ l)) := rfl
    rw [hstep, hrec]
    simp [splitStep, hc]

theorem splitChunks_space_cons (c : Char) (l : Str) (hc : pyIsSpace c = true) :
    ∀ v vs, splitChunks l = v :: vs → splitChunks (c :: l) = [] :: v :: vs := by
  intro v vs h
  have hstep : splitChunks (c :: l) = splitStep c (splitChunks l) := rfl
  rw [hstep, h]
  simp [splitStep, hc]

theorem splitWords_joinWords (ws : List (List Char))
    (h : ∀ w ∈ ws, w ≠ [] ∧ ∀ c ∈ w, pyIsSpace c = false) :
    splitWords (joinWords ws) = ws := by
  induction ws with
  | nil => rfl
  | cons w ws ih =>
    cases ws with
    | nil =>
      obtain ⟨hne, hns⟩ := h w (List.mem_cons_self w [])
      have h1 : splitChunks (w ++ ([] : Str)) = (w ++ []) :: [] :=
        splitChunks_append_word w [] hns [] [] rfl
      simp only [List.append_nil] at h1
      show splitWords w = [w]
      unfold splitWords
      rw [h1]
      simp [hne]
    | cons w' ws' =>
      obtain ⟨hne, hns⟩ := h w (List.mem_cons_self w (w' :: ws'))
      have hrest : ∀ u ∈ w' :: ws', u ≠ [] ∧ ∀ c ∈ u, pyIsSpace c = false :=
        fun u hu => h u (List.mem_cons_of_mem w hu)
      have hih := ih hrest
      obtain ⟨v, vs, hvvs⟩ : ∃ v vs, splitChunks (joinWords (w' :: ws')) = v :: vs := by
        cases hx : splitChunks (joinWords (w' :: ws')) with
        | nil => exact absurd hx (splitChunks_ne_nil _)
        | cons v vs => exact ⟨v, vs, rfl⟩
      have hsp : splitChunks (' ' :: joinWords (w' :: ws')) = [] :: v :: vs :=
        splitChunks_space_cons ' ' _ rfl v vs hvvs
      have happ : splitChunks (w ++ ' ' :: joinWords (w' :: ws')) = (w ++ []) :: v :: vs :=
        splitChunks_append_word w _ hns [] (v :: vs) hsp
      simp only [List.append_nil] at happ
      have hfil : List.filter (fun u => decide (u ≠ [])) (v :: vs) = w' :: ws' := by
        have hx : List.filter (fun u => decide (u ≠ []))
            (splitChunks (joinWords (w' :: ws'))) = w' :: ws' := hih
        rwa [hvvs] at hx
      show List.filter (fun u => decide (u ≠ []))
        (splitChunks (joinWords (w :: w' :: ws'))) = w :: w' :: ws'
      have hj : joinWords (w :: w' :: ws') = w ++ ' ' :: joinWords (w' :: ws') := rfl
      rw [hj, happ, List.filter_cons, if_pos (by simpa using hne), hfil]

/-! ## Truncation lemmas -/

theorem truncate_length_le (f : Str) : (truncate_tweet f 280).length ≤ 280 := by
  unfold truncate_tweet
  split
  · assumption
  · rename_i h
    rw [List.length_append, List.length_take]
    have h3 : ("...".toList : Str).length = 3 := rfl
    rw [h3]
    omega

/-! ## Claim theorems: text layer -/

/-- C7 (counterexample): on the 15-word input below, the word count
remaining after dropping the first 10 words is 5, which does not exceed 10,
yet `detect_language` does not detect the cleaned text in full: the first
10 words are dropped.  This falsifies the claim's "exactly when the
remaining word count exceeds 10" condition. -/
theorem C7_counterexample :
    detectionText "a b c d e f g h i j k l m n o".toList = "k l m n o".toList ∧
    (splitWords (clean_tweet_text "a b c d e f g h i j k l m n o".toList)).length = 15 ∧
    ¬ (10 < (splitWords (clean_tweet_text "a b c d e f g h i j k l m n o".toList)).length - 10) ∧
    detectionText "a b c d e f g h i j k l m n o".toList ≠
      clean_tweet_text "a b c d e f g h i j k l m n o".toList := by
  refine ⟨by decide, by decide, by decide, by decide⟩

/-- C7 (amended): the first 10 words of the cleaned text are dropped before
the detection call exactly when the cleaned text's total word count exceeds
10 (equivalently, when at least one word remains after the drop); otherwise
the cleaned text is detected in full.  Stated both on the detection input
string and on its word list. -/
theorem C7_amended (t : Str) :
    splitWords (detectionText t) =
      (if 10 < (splitWords (clean_tweet_text t)).length
       then (splitWords (clean_tweet_text t)).drop 10
       else splitWords (clean_tweet_text t)) ∧
    detectionText t =
      (if 10 < (splitWords (clean_tweet_text t)).length
       then joinWords ((splitWords (clean_tweet_text t)).drop 10)
       else clean_tweet_text t) := by
  constructor
  · by_cases h : 10 < (splitWords (clean_tweet_text t)).length
    · simp only [detectionText, if_pos h]
      exact splitWords_joinWords _
        (fun w hw => splitWords_sound (clean_tweet_text t) w (List.drop_subset 10 _ hw))
    · simp only [detectionText, if_neg h]
  · rfl

set_option maxRecDepth 8192 in
/-- C6 (counterexample): the claim quantifies over every detected language
code; for a 280-character language code the formatted string exceeds 280
units, and the truncated output (280 units) is too short to contain the
290-unit language-tag prefix, so the prefix is not intact. -/
theorem C6_counterexample :
    280 < (formatRepost (List.replicate 280 'a') []).length ∧
    ¬ (("(".toList ++ List.replicate 280 'a' ++ " → en):\n\n".toList) <+:
        truncate_tweet (formatRepost (List.replicate 280 'a') []) 280) := by
  constructor
  · decide
  · rintro ⟨t, ht⟩
    have h3 : ("(".toList ++ List.replicate 280 'a' ++ " → en):\n\n".toList).length + t.length
        = (truncate_tweet (formatRepost (List.replicate 280 'a') []) 280).length := by
      rw [← List.length_append, ht]
    have h1 : ("(".toList ++ List.replicate 280 'a' ++ " → en):\n\n".toList).length = 290 := by
      decide
    have h2 : (truncate_tweet (formatRepost (List.replicate 280 'a') []) 280).length = 280 := by
      decide
    omega

/-- C6 (amended): for every translated text and language code, the prepared
output has length at most 280; whenever the formatted string exceeds 280
units the output has exactly 280 units and ends with the three-unit
ellipsis, and — provided the language code has at most 267 units, so that
the language-tag prefix fits inside the 277 retained units (all real
detection codes are a few characters) — the output still begins with the
intact language-tag prefix.  Any `prepare_tweet` output obeys the length
bound. -/
theorem C6_amended (translated lang : Str) :
    (truncate_tweet (formatRepost lang translated) 280).length ≤ 280 ∧
    (280 < (formatRepost lang translated).length →
      (truncate_tweet (formatRepost lang translated) 280).length = 280 ∧
      "...".toList <:+ truncate_tweet (formatRepost lang translated) 280 ∧
      (lang.length ≤ 267 →
        ("(".toList ++ lang ++ " → en):\n\n".toList) <+:
          truncate_tweet (formatRepost lang translated) 280)) ∧
    (∀ (tr : Str → Str → Option Str) (orig out : Str),
      prepare_tweet tr orig lang = some out → out.length ≤ 280) := by
  refine ⟨truncate_length_le _, ?_, ?_⟩
  · intro hlong
    have hnle : ¬ (formatRepost lang translated).length ≤ 280 := by omega
    have htr : truncate_tweet (formatRepost lang translated) 280 =
        (formatRepost lang translated).take 277 ++ "...".toList := by
      unfold truncate_tweet
      rw [if_neg hnle]
    have h3 : ("...".toList : Str).length = 3 := rfl
    refine ⟨?_, ?_, ?_⟩
    · rw [htr, List.length_append, List.length_take, h3]
      omega
    · rw [htr]
      exact ⟨_, rfl⟩
    · intro hlang
      have hpfx : ("(".toList ++ lang ++ " → en):\n\n".toList).length = lang.length + 10 := by
        rw [List.length_append, List.length_append]
        have e1 : ("(".toList : Str).length = 1 := rfl
        have e2 : (" → en):\n\n".toList : Str).length = 9 := rfl
        rw [e1, e2]
        omega
      have hf : formatRepost lang translated =
          ("(".toList ++ lang ++ " → en):\n\n".toList) ++ translated := by
        simp [formatRepost, List.append_assoc]
      have htake : (formatRepost lang translated).take 277 =
          ("(".toList ++ lang ++ " → en):\n\n".toList) ++
            (translated.take (277 - (lang.length + 10))) := by
        rw [hf, List.take_append_eq_append_take, hpfx,
          List.take_of_length_le (by omega)]
      rw [htr, htake]
      refine ⟨translated.take (277 - (lang.length + 10)) ++ "...".toList, ?_⟩
      simp only [List.append_assoc]
  · intro tr orig out hout
    simp only [prepare_tweet] at hout
    cases htr : tr (clean_tweet_text orig) lang with
    | none =>
      simp only [htr] at hout
      simp at hout
    | some tx =>
      simp only [htr] at hout
      by_cases hx : tx = []
      · rw [if_pos hx] at hout
        exact absurd hout (by simp)
      · rw [if_neg hx] at hout
        have hinj := Option.some.inj hout
        rw [← hinj]
        exact truncate_length_le _

set_option maxRecDepth 8192 in
/-- Witness for C6 (amended) at a concrete overlong translation with the
language code `fr`. -/
theorem C6_witness :
    280 < (formatRepost "fr".toList (List.replicate 300 'b')).length ∧
    ("fr".toList : Str).length ≤ 267 ∧
    ((truncate_tweet (formatRepost "fr".toList (List.replicate 300 'b')) 280).length = 280 ∧
     "...".toList <:+ truncate_tweet (formatRepost "fr".toList (List.replicate 300 'b')) 280 ∧
     ("(".toList ++ "fr".toList ++ " → en):\n\n".toList) <+:
       truncate_tweet (formatRepost "fr".toList (List.replicate 300 'b')) 280) := by
  have h1 : 280 < (formatRepost "fr".toList (List.replicate 300 'b')).length := by decide
  have h2 : ("fr".toList : Str).length ≤ 267 := by decide
  obtain ⟨-, himp, -⟩ := C6_amended (List.replicate 300 'b') "fr".toList
  obtain ⟨ha, hb, hc⟩ := himp h1
  exact ⟨h1, h2, ha, hb, hc h2⟩

/-- C10: a `TranslationService` constructed with no detection API key, or a
key that strips to the empty string, stores no key, and `detect_language`
then returns `None` for every input text and every behaviour of the
external detection API (no external call can influence the result). -/
theorem C10_missing_key_detects_none (raw : Option Str) (api : Str → Option Str) (t : Str)
    (h : raw = none ∨ ∃ k, raw = some k ∧ pyStrip k = []) :
    detect_language (normalizeKey raw) api t = none := by
  rcases h with rfl | ⟨k, rfl, hk⟩
  · rfl
  · simp [normalizeKey, hk, detect_language]

/-- Witness for C10 at the concrete whitespace-only key. -/
theorem C10_witness :
    ((some "  ".toList : Option Str) = none ∨
      ∃ k, (some "  ".toList : Option Str) = some k ∧ pyStrip k = []) ∧
    detect_language (normalizeKey (some "  ".toList)) (fun _ => some "fr".toList)
      "hola mundo".toList = none :=
  ⟨Or.inr ⟨"  ".toList, rfl, by decide⟩,
   C10_missing_key_detects_none (some "  ".toList) (fun _ => some "fr".toList)
     "hola mundo".toList (Or.inr ⟨"  ".toList, rfl, by decide⟩)⟩

/-! ## Claim theorems: ledger file layer -/

/-- C2 (counterexample): the `add` operations of the `downloaded_tweets`
and `processed_accounts` ledgers perform a bare append to the ledger file —
no temporary file, no atomic rename — contradicting the claim that no add
ever appends directly. -/
theorem C2_counterexample :
    (save_downloaded_tweet none [] "123".toList).ops = [FileOp.append "123".toList] ∧
    (save_processed_account none [] "77".toList).ops = [FileOp.append "77".toList] :=
  ⟨rfl, rfl⟩

theorem applyOps_atomic (fl : Option (List Str)) (L : List Str) (n : Nat) :
    (applyOps ⟨fl, none⟩ ([FileOp.writeTmp L, FileOp.rename].take n)).main = fl ∨
    (applyOps ⟨fl, none⟩ ([FileOp.writeTmp L, FileOp.rename].take n)).main = some L := by
  match n with
  | 0 => exact Or.inl rfl
  | 1 => exact Or.inl rfl
  | n + 2 =>
    right
    have h : [FileOp.writeTmp L, FileOp.rename].take (n + 2) =
        [FileOp.writeTmp L, FileOp.rename] := by
      simp [List.take_succ_cons, List.take_nil]
    rw [h]
    rfl

/-- C2 (amended): only `save_processed_mention` performs the whole-file
atomic replace — its operation trace is empty or exactly a temp-file write
of the full updated line list followed by an atomic rename, and after any
prefix of that trace the durable target file holds either the old or the
full new contents.  The `downloaded_tweets`, `pending_tweets` and
`processed_accounts` saves instead append directly to their ledger files. -/
theorem C2_amended (fileLines : Option (List Str)) (mem : List Str) (idStr : Str) :
    ((save_processed_mention fileLines mem idStr).ops = [] ∨
      (save_processed_mention fileLines mem idStr).ops =
        [FileOp.writeTmp (fileLines.getD [] ++ [idStr]), FileOp.rename]) ∧
    (∀ n : Nat,
      (applyOps ⟨fileLines, none⟩
        ((save_processed_mention fileLines mem idStr).ops.take n)).main = fileLines ∨
      (applyOps ⟨fileLines, none⟩
        ((save_processed_mention fileLines mem idStr).ops.take n)).main =
        some (fileLines.getD [] ++ [idStr])) ∧
    (save_downloaded_tweet fileLines mem idStr).ops = [FileOp.append idStr] ∧
    (save_pending_tweet fileLines mem idStr).ops = [FileOp.append idStr] ∧
    (save_processed_account fileLines mem idStr).ops = [FileOp.append idStr] := by
  have hshape : (save_processed_mention fileLines mem idStr).ops = [] ∨
      (save_processed_mention fileLines mem idStr).ops =
        [FileOp.writeTmp (fileLines.getD [] ++ [idStr]), FileOp.rename] := by
    by_cases h1 : idStr ∈ mem
    · exact Or.inl (by simp [save_processed_mention, h1])
    · cases fileLines with
      | none => exact Or.inr (by simp [save_processed_mention, h1])
      | some lines =>
        by_cases h2 : idStr ∈ lines.map pyStrip
        · exact Or.inl (by simp [save_processed_mention, h1, h2])
        · exact Or.inr (by simp [save_processed_mention, h1, h2])
  refine ⟨hshape, ?_, rfl, rfl, rfl⟩
  intro n
  rcases hshape with h | h
  · rw [h]
    exact Or.inl (by simp [applyOps])
  · rw [h]
    exact applyOps_atomic fileLines _ n

/-- C8 (counterexample): for the id `" x"`, which is a line of the
`processed_mentions` file, `save_processed_mention` is not a no-op: the
stripped-line membership test misses it, and the file gains a duplicate
`" x"` line. -/
theorem C8_counterexample :
    (" x".toList ∈ [" x".toList]) ∧
    (save_processed_mention (some [" x".toList]) [] " x".toList).fileLines =
      some [" x".toList, " x".toList] ∧
    (some [" x".toList, " x".toList] : Option (List Str)) ≠ some [" x".toList] := by
  refine ⟨by decide, by decide, by decide⟩

/-- C8 (amended): for every id that is whitespace-free (equal to its own
strip — true of every `str(int)` id the bot passes), whenever the id is
already in the in-memory `processed_mentions` set or already a line of the
`processed_mentions` file, `save_processed_mention` leaves the file, the
in-memory set and the operation trace unchanged (an idempotent no-op), so
the ledger never acquires a duplicate entry through this operation. -/
theorem C8_amended (fileLines : Option (List Str)) (mem : List Str) (idStr : Str)
    (hstrip : pyStrip idStr = idStr)
    (h : idStr ∈ mem ∨ idStr ∈ fileLines.getD []) :
    save_processed_mention fileLines mem idStr = ⟨fileLines, mem, []⟩ := by
  by_cases h1 : idStr ∈ mem
  · simp [save_processed_mention, h1]
  · have h2 : idStr ∈ fileLines.getD [] := h.resolve_left h1
    cases fileLines with
    | none => simp at h2
    | some lines =>
      have h3 : idStr ∈ lines.map pyStrip := by
        have := List.mem_map_of_mem pyStrip (by simpa using h2)
        rwa [hstrip] at this
      simp [save_processed_mention, h1, h3]

/-- Witness for C8 at a concrete digit id already present in both the
in-memory set and the file. -/
theorem C8_witness :
    pyStrip "5".toList = "5".toList ∧
    ("5".toList ∈ ["5".toList] ∨ "5".toList ∈ (some ["5".toList] : Option (List Str)).getD []) ∧
    save_processed_mention (some ["5".toList]) ["5".toList] "5".toList =
      ⟨some ["5".toList], ["5".toList], []⟩ :=
  ⟨by decide, Or.inl (by decide),
   C8_amended (some ["5".toList]) ["5".toList] "5".toList (by decide) (Or.inl (by decide))⟩

/-! ## Claim theorems: client layer -/

/-- C9: `get_cached_media_url` returns exactly the result (URL and cache
state) of `get_media_url` on every input — it delegates unchanged — so the
`processed_accounts` branch of `process_mention` resolves the same URL
whichever arm of the branch is taken. -/
theorem C9_cached_equals_normal (e : ClientEnv) (cache : List (Nat × Str)) (tid : Nat) :
    get_cached_media_url e cache tid = get_media_url e cache tid ∧
    ∀ b : Bool,
      (if b then get_cached_media_url e cache tid else get_media_url e cache tid) =
        get_media_url e cache tid := by
  exact ⟨rfl, fun b => by cases b <;> rfl⟩

/-! ## Lemmas about the bot reconciliation layer -/

theorem mem_markProcessed (i : Nat) (s : BotState) :
    i ∈ (markProcessed i s).processedMentions := by
  unfold markProcessed
  split
  · assumption
  · simp

theorem markProcessed_pm_mono {i x : Nat} {s : BotState}
    (hx : x ∈ s.processedMentions) : x ∈ (markProcessed i s).processedMentions := by
  unfold markProcessed
  split
  · exact hx
  · simp [hx]

theorem markAccount_pm (i : Nat) (s : BotState) :
    (markAccount i s).processedMentions = s.processedMentions := by
  unfold markAccount
  split <;> rfl

theorem commitBoth_pm_mono {x mid oid : Nat} {s : BotState}
    (hx : x ∈ s.processedMentions) : x ∈ (commitBoth mid oid s).processedMentions :=
  markProcessed_pm_mono (markProcessed_pm_mono hx)

theorem mem_commitBoth_mid (mid oid : Nat) (s : BotState) :
    mid ∈ (commitBoth mid oid s).processedMentions :=
  markProcessed_pm_mono (mem_markProcessed mid s)

theorem mem_commitBoth_oid (mid oid : Nat) (s : BotState) :
    oid ∈ (commitBoth mid oid s).processedMentions :=
  mem_markProcessed oid _

theorem extractPhase_pm (e : Env) (s : BotState) (tw : Tweet) (oid : Nat) :
    (extractPhase e s tw oid).1.processedMentions = s.processedMentions := by
  unfold extractPhase
  split_ifs <;> first | rfl | exact markAccount_pm _ _

theorem extractPhase_text (e : Env) (s : BotState) (tw : Tweet) (oid : Nat) :
    (extractPhase e s tw oid).2 = extractedText e tw oid := by
  unfold extractPhase extractedText
  split_ifs <;> rfl

/-! Branch-evaluation lemmas for `process_mention`: under the hypotheses
pinning each decision point, the function evaluates to the stated result.
The decision points (original id, fetched tweet, detection, translation)
depend only on the environment and the mention, never on the bot state. -/

theorem pm_skip (e : Env) (s : BotState) (m : Mention)
    (h : m.id ∈ s.processedMentions) : process_mention e s m = (s, []) := by
  unfold process_mention
  rw [if_pos h]

theorem pm_eval_no_orig (e : Env) (s : BotState) (m : Mention)
    (h1 : m.id ∉ s.processedMentions) (ho : originalTweetId m = none) :
    process_mention e s m = (s, []) := by
  simp only [process_mention, if_neg h1, ho]

theorem pm_eval_zero (e : Env) (s : BotState) (m : Mention) (oid : Nat)
    (h1 : m.id ∉ s.processedMentions) (ho : originalTweetId m = some oid)
    (hz : oid = 0) : process_mention e s m = (s, []) := by
  simp only [process_mention, if_neg h1, ho, if_pos hz]

theorem pm_eval_skip_orig (e : Env) (s : BotState) (m : Mention) (oid : Nat)
    (h1 : m.id ∉ s.processedMentions) (ho : originalTweetId m = some oid)
    (hz : oid ≠ 0) (h2 : oid ∈ s.processedMentions) :
    process_mention e s m = (s, []) := by
  simp only [process_mention, if_neg h1, ho, if_neg hz, if_pos h2]

theorem pm_eval_no_tweet (e : Env) (s : BotState) (m : Mention) (oid : Nat)
    (h1 : m.id ∉ s.processedMentions) (ho : originalTweetId m = some oid)
    (hz : oid ≠ 0) (h2 : oid ∉ s.processedMentions)
    (hg : e.getTweet oid = none) : process_mention e s m = (s, []) := by
  simp only [process_mention, if_neg h1, ho, if_neg hz, if_neg h2, hg]

theorem pm_eval_commit_detect_falsy (e : Env) (s : BotState) (m : Mention) (oid : Nat)
    (tw : Tweet) (h1 : m.id ∉ s.processedMentions) (ho : originalTweetId m = some oid)
    (hz : oid ≠ 0) (h2 : oid ∉ s.processedMentions) (hg : e.getTweet oid = some tw)
    (hd : detectLang e (extractedText e tw oid) = none) :
    process_mention e s m = (commitBoth m.id oid (extractPhase e s tw oid).1, []) := by
  simp only [process_mention, if_neg h1, ho, if_neg hz, if_neg h2, hg,
    extractPhase_text, hd]

theorem pm_eval_commit_en (e : Env) (s : BotState) (m : Mention) (oid : Nat)
    (tw : Tweet) (lang : Str) (h1 : m.id ∉ s.processedMentions)
    (ho : originalTweetId m = some oid) (hz : oid ≠ 0) (h2 : oid ∉ s.processedMentions)
    (hg : e.getTweet oid = some tw)
    (hd : detectLang e (extractedText e tw oid) = some lang)
    (hl : lang = [] ∨ lang = "en".toList) :
    process_mention e s m = (commitBoth m.id oid (extractPhase e s tw oid).1, []) := by
  simp only [process_mention, if_neg h1, ho, if_neg hz, if_neg h2, hg,
    extractPhase_text, hd, if_pos hl]

theorem pm_eval_translate_falsy (e : Env) (s : BotState) (m : Mention) (oid : Nat)
    (tw : Tweet) (lang : Str) (h1 : m.id ∉ s.processedMentions)
    (ho : originalTweetId m = some oid) (hz : oid ≠ 0) (h2 : oid ∉ s.processedMentions)
    (hg : e.getTweet oid = some tw)
    (hd : detectLang e (extractedText e tw oid) = some lang)
    (hl : ¬(lang = [] ∨ lang = "en".toList))
    (ht : e.translate (extractedText e tw oid) lang = none) :
    process_mention e s m = ((extractPhase e s tw oid).1, []) := by
  simp only [process_mention, if_neg h1, ho, if_neg hz, if_neg h2, hg,
    extractPhase_text, hd, if_neg hl, ht]

theorem pm_eval_translate_empty (e : Env) (s : BotState) (m : Mention) (oid : Nat)
    (tw : Tweet) (lang t : Str) (h1 : m.id ∉ s.processedMentions)
    (ho : originalTweetId m = some oid) (hz : oid ≠ 0) (h2 : oid ∉ s.processedMentions)
    (hg : e.getTweet oid = some tw)
    (hd : detectLang e (extractedText e tw oid) = some lang)
    (hl : ¬(lang = [] ∨ lang = "en".toList))
    (ht : e.translate (extractedText e tw oid) lang = some t) (htt : t = []) :
    process_mention e s m = ((extractPhase e s tw oid).1, []) := by
  simp only [process_mention, if_neg h1, ho, if_neg hz, if_neg h2, hg,
    extractPhase_text, hd, if_neg hl, ht, if_pos htt]

theorem pm_eval_full (e : Env) (s : BotState) (m : Mention) (oid : Nat)
    (tw : Tweet) (lang t : Str) (h1 : m.id ∉ s.processedMentions)
    (ho : originalTweetId m = some oid) (hz : oid ≠ 0) (h2 : oid ∉ s.processedMentions)
    (hg : e.getTweet oid = some tw)
    (hd : detectLang e (extractedText e tw oid) = some lang)
    (hl : ¬(lang = [] ∨ lang = "en".toList))
    (ht : e.translate (extractedText e tw oid) lang = some t) (htt : t ≠ []) :
    process_mention e s m =
      (commitBoth m.id oid (extractPhase e s tw oid).1,
       upload_to_archive e (extractedText e tw oid) t lang oid) := by
  simp only [process_mention, if_neg h1, ho, if_neg hz, if_neg h2, hg,
    extractPhase_text, hd, if_neg hl, ht, if_neg htt]

theorem process_mention_pm_mono (e : Env) (s : BotState) (m : Mention) :
    s.processedMentions ⊆ (process_mention e s m).1.processedMentions := by
  by_cases h1 : m.id ∈ s.processedMentions
  · rw [pm_skip e s m h1]
    exact fun _ hx => hx
  · cases ho : originalTweetId m with
    | none =>
      rw [pm_eval_no_orig e s m h1 ho]
      exact fun _ hx => hx
    | some oid =>
      by_cases hz : oid = 0
      · rw [pm_eval_zero e s m oid h1 ho hz]
        exact fun _ hx => hx
      · by_cases h2 : oid ∈ s.processedMentions
        · rw [pm_eval_skip_orig e s m oid h1 ho hz h2]
          exact fun _ hx => hx
        · cases hg : e.getTweet oid with
          | none =>
            rw [pm_eval_no_tweet e s m oid h1 ho hz h2 hg]
            exact fun _ hx => hx
          | some tw =>
            cases hd : detectLang e (extractedText e tw oid) with
            | none =>
              rw [pm_eval_commit_detect_falsy e s m oid tw h1 ho hz h2 hg hd]
              intro x hx
              exact commitBoth_pm_mono ((extractPhase_pm e s tw oid).symm ▸ hx)
            | some lang =>
              by_cases hl : lang = [] ∨ lang = "en".toList
              · rw [pm_eval_commit_en e s m oid tw lang h1 ho hz h2 hg hd hl]
                intro x hx
                exact commitBoth_pm_mono ((extractPhase_pm e s tw oid).symm ▸ hx)
              · cases ht : e.translate (extractedText e tw oid) lang with
                | none =>
                  rw [pm_eval_translate_falsy e s m oid tw lang h1 ho hz h2 hg hd hl ht]
                  intro x hx
                  exact (extractPhase_pm e s tw oid).symm ▸ hx
                | some t =>
                  by_cases htt : t = []
                  · rw [pm_eval_translate_empty e s m oid tw lang t h1 ho hz h2 hg hd hl ht htt]
                    intro x hx
                    exact (extractPhase_pm e s tw oid).symm ▸ hx
                  · rw [pm_eval_full e s m oid tw lang t h1 ho hz h2 hg hd hl ht htt]
                    intro x hx
                    exact commitBoth_pm_mono ((extractPhase_pm e s tw oid).symm ▸ hx)

theorem process_mention_second_silent (e : Env) (m : Mention) (s s' : BotState)
    (hsub : s.processedMentions ⊆ s'.processedMentions)
    (hnc : m.id ∉ (process_mention e s m).1.processedMentions) :
    (process_mention e s' m).2 = [] := by
  by_cases h1' : m.id ∈ s'.processedMentions
  · rw [pm_skip e s' m h1']
  · have h1 : m.id ∉ s.processedMentions := fun h => h1' (hsub h)
    cases ho : originalTweetId m with
    | none => rw [pm_eval_no_orig e s' m h1' ho]
    | some oid =>
      by_cases hz : oid = 0
      · rw [pm_eval_zero e s' m oid h1' ho hz]
      · by_cases h2' : oid ∈ s'.processedMentions
        · rw [pm_eval_skip_orig e s' m oid h1' ho hz h2']
        · have h2 : oid ∉ s.processedMentions := fun h => h2' (hsub h)
          cases hg : e.getTweet oid with
          | none => rw [pm_eval_no_tweet e s' m oid h1' ho hz h2' hg]
          | some tw =>
            cases hd : detectLang e (extractedText e tw oid) with
            | none =>
              exfalso
              apply hnc
              rw [pm_eval_commit_detect_falsy e s m oid tw h1 ho hz h2 hg hd]
              exact mem_commitBoth_mid _ _ _
            | some lang =>
              by_cases hl : lang = [] ∨ lang = "en".toList
              · exfalso
                apply hnc
                rw [pm_eval_commit_en e s m oid tw lang h1 ho hz h2 hg hd hl]
                exact mem_commitBoth_mid _ _ _
              · cases ht : e.translate (extractedText e tw oid) lang with
                | none =>
                  rw [pm_eval_translate_falsy e s' m oid tw lang h1' ho hz h2' hg hd hl ht]
                | some t =>
                  by_cases htt : t = []
                  · rw [pm_eval_translate_empty e s' m oid tw lang t h1' ho hz h2' hg hd hl ht htt]
                  · exfalso
                    apply hnc
                    rw [pm_eval_full e s m oid tw lang t h1 ho hz h2 hg hd hl ht htt]
                    exact mem_commitBoth_mid _ _ _

theorem upload_shape (e : Env) (origT trT lang : Str) (oid : Nat) :
    upload_to_archive e origT trT lang oid = [] ∨
    upload_to_archive e origT trT lang oid = [Action.archiveUpload oid] ∨
    ∃ txt, upload_to_archive e origT trT lang oid =
      [Action.archiveUpload oid, Action.reply oid txt] := by
  cases he : e.archiveEnabled with
  | false => exact Or.inl (by simp [upload_to_archive, he])
  | true =>
    cases hu : e.upload oid lang origT trT with
    | none => exact Or.inr (Or.inl (by simp [upload_to_archive, he, hu]))
    | some url =>
      exact Or.inr (Or.inr ⟨replyText lang url, by simp [upload_to_archive, he, hu]⟩)

theorem process_mention_actions (e : Env) (s : BotState) (m : Mention) (oid : Nat)
    (ho : originalTweetId m = some oid) :
    (process_mention e s m).2 = [] ∨
    (m.id ∈ (process_mention e s m).1.processedMentions ∧
     oid ∈ (process_mention e s m).1.processedMentions ∧
     ((process_mention e s m).2 = [Action.archiveUpload oid] ∨
      ∃ txt, (process_mention e s m).2 = [Action.archiveUpload oid, Action.reply oid txt])) := by
  by_cases h1 : m.id ∈ s.processedMentions
  · exact Or.inl (by rw [pm_skip e s m h1])
  · by_cases hz : oid = 0
    · exact Or.inl (by rw [pm_eval_zero e s m oid h1 ho hz])
    · by_cases h2 : oid ∈ s.processedMentions
      · exact Or.inl (by rw [pm_eval_skip_orig e s m oid h1 ho hz h2])
      · cases hg : e.getTweet oid with
        | none => exact Or.inl (by rw [pm_eval_no_tweet e s m oid h1 ho hz h2 hg])
        | some tw =>
          cases hd : detectLang e (extractedText e tw oid) with
          | none => exact Or.inl (by rw [pm_eval_commit_detect_falsy e s m oid tw h1 ho hz h2 hg hd])
          | some lang =>
            by_cases hl : lang = [] ∨ lang = "en".toList
            · exact Or.inl (by rw [pm_eval_commit_en e s m oid tw lang h1 ho hz h2 hg hd hl])
            · cases ht : e.translate (extractedText e tw oid) lang with
              | none => exact Or.inl (by rw [pm_eval_translate_falsy e s m oid tw lang h1 ho hz h2 hg hd hl ht])
              | some t =>
                by_cases htt : t = []
                · exact Or.inl (by rw [pm_eval_translate_empty e s m oid tw lang t h1 ho hz h2 hg hd hl ht htt])
                · rcases upload_shape e (extractedText e tw oid) t lang oid with hu | hu | ⟨txt, hu⟩
                  · exact Or.inl (by rw [pm_eval_full e s m oid tw lang t h1 ho hz h2 hg hd hl ht htt, hu])
                  · refine Or.inr ⟨?_, ?_, Or.inl ?_⟩ <;>
                      rw [pm_eval_full e s m oid tw lang t h1 ho hz h2 hg hd hl ht htt]
                    · exact mem_commitBoth_mid _ _ _
                    · exact mem_commitBoth_oid _ _ _
                    · exact hu
                  · refine Or.inr ⟨?_, ?_, Or.inr ⟨txt, ?_⟩⟩ <;>
                      rw [pm_eval_full e s m oid tw lang t h1 ho hz h2 hg hd hl ht htt]
                    · exact mem_commitBoth_mid _ _ _
                    · exact mem_commitBoth_oid _ _ _
                    · exact hu

theorem pm_orig_processed_silent (e : Env) (s : BotState) (m : Mention) (oid : Nat)
    (ho : originalTweetId m = some oid) (h2 : oid ∈ s.processedMentions) :
    (process_mention e s m).2 = [] := by
  by_cases h1 : m.id ∈ s.processedMentions
  · rw [pm_skip e s m h1]
  · by_cases hz : oid = 0
    · rw [pm_eval_zero e s m oid h1 ho hz]
    · rw [pm_eval_skip_orig e s m oid h1 ho hz h2]

theorem process_list_pm_mono (e : Env) (ms : List Mention) :
    ∀ s : BotState,
      s.processedMentions ⊆ (process_mentions_list e s ms).1.processedMentions := by
  induction ms with
  | nil => exact fun s _ hx => hx
  | cons m ms ih =>
    intro s x hx
    exact ih (process_mention e s m).1 (process_mention_pm_mono e s m hx)

theorem process_list_mem_silent (e : Env) (m : Mention) :
    ∀ (ms : List Mention) (s t : BotState), m ∈ ms →
      (process_mentions_list e s ms).1.processedMentions ⊆ t.processedMentions →
      (process_mention e t m).2 = [] := by
  intro ms
  induction ms with
  | nil => intro s t hm _; cases hm
  | cons m0 ms ih =>
    intro s t hm ht
    rcases List.mem_cons.mp hm with rfl | hm'
    · by_cases hc : m.id ∈ (process_mention e s m).1.processedMentions
      · have hmem : m.id ∈ t.processedMentions :=
          ht (process_list_pm_mono e ms (process_mention e s m).1 hc)
        rw [pm_skip e t m hmem]
      · exact process_mention_second_silent e m s t
          (fun x hx => ht (process_list_pm_mono e ms (process_mention e s m).1
            (process_mention_pm_mono e s m hx))) hc
    · exact ih (process_mention e s m0).1 t hm' ht

theorem process_list_all_silent (e : Env) (S : BotState) :
    ∀ (l : List Mention) (t0 : BotState),
      (∀ m ∈ l, ∀ t : BotState, S.processedMentions ⊆ t.processedMentions →
        (process_mention e t m).2 = []) →
      S.processedMentions ⊆ t0.processedMentions →
      (process_mentions_list e t0 l).2 = [] := by
  intro l
  induction l with
  | nil => intro t0 _ _; rfl
  | cons m ms ih =>
    intro t0 hall h0
    have ha : (process_mention e t0 m).2 = [] :=
      hall m (List.mem_cons_self m ms) t0 h0
    have hrest : (process_mentions_list e (process_mention e t0 m).1 ms).2 = [] :=
      ih (process_mention e t0 m).1 (fun u hu => hall u (List.mem_cons_of_mem m hu))
        (fun x hx => process_mention_pm_mono e t0 m (h0 hx))
    have hstep : (process_mentions_list e t0 (m :: ms)).2 =
        (process_mention e t0 m).2 ++
          (process_mentions_list e (process_mention e t0 m).1 ms).2 := rfl
    rw [hstep, ha, hrest]
    rfl

/-! ## Claim theorems: reconciliation loop -/

/-- C1: running the mention phase of the reconciliation loop a second time
over an unchanged candidate set of mentions, starting from the state left by
the first run (whose `processed_mentions` ledger therefore contains every id
the first run committed), performs zero additional publish/reply/archive
actions: every mention is either filtered out or skipped by the
`processed_mentions` checks before any stage runs, and a mention the first
run left uncommitted deterministically fails before producing an action. -/
theorem C1_second_cycle_no_actions (e : Env) (s : BotState) (ms : List Mention) :
    (run_mentions_cycle e (run_mentions_cycle e s ms).1 ms).2 = [] := by
  have hsub : s.processedMentions ⊆ (run_mentions_cycle e s ms).1.processedMentions :=
    process_list_pm_mono e _ s
  show (process_mentions_list e (run_mentions_cycle e s ms).1
    (ms.filter (fun m =>
      decide (m.id ∉ (run_mentions_cycle e s ms).1.processedMentions)))).2 = []
  apply process_list_all_silent e (run_mentions_cycle e s ms).1
  · intro m hm t ht
    have hm2 := List.mem_filter.mp hm
    have hnotin : m.id ∉ (run_mentions_cycle e s ms).1.processedMentions := by
      simpa using hm2.2
    have hm1 : m ∈ ms.filter (fun m => decide (m.id ∉ s.processedMentions)) :=
      List.mem_filter.mpr ⟨hm2.1, by
        simp only [decide_eq_true_eq]
        exact fun h => hnotin (hsub h)⟩
    exact process_list_mem_silent e m
      (ms.filter (fun m => decide (m.id ∉ s.processedMentions))) s t hm1 ht
  · exact fun _ hx => hx

/-- C3: two distinct mentions that resolve to the same original tweet id
produce at most one archive-upload action and at most one reply action for
that original, whether processed back-to-back or with any ledger-preserving
processing in between: a mention that acts commits both its own id and the
original id to `processed_mentions`, and the later mention is skipped by the
original-id check before any stage runs. -/
theorem C3_no_duplicate_archive (e : Env) (s s' : BotState) (m1 m2 : Mention) (oid : Nat)
    (_hne : m1.id ≠ m2.id)
    (ho1 : originalTweetId m1 = some oid)
    (ho2 : originalTweetId m2 = some oid)
    (hsub : (process_mention e s m1).1.processedMentions ⊆ s'.processedMentions) :
    countArchive oid ((process_mention e s m1).2 ++ (process_mention e s' m2).2) ≤ 1 ∧
    countReply oid ((process_mention e s m1).2 ++ (process_mention e s' m2).2) ≤ 1 := by
  rcases process_mention_actions e s m1 oid ho1 with h1 | ⟨_, ho1mem, hsh1⟩
  · rw [h1, List.nil_append]
    rcases process_mention_actions e s' m2 oid ho2 with h2 | ⟨_, _, hsh2⟩
    · rw [h2]
      exact ⟨by simp [countArchive], by simp [countReply]⟩
    · rcases hsh2 with h2 | ⟨txt, h2⟩ <;> rw [h2] <;>
        exact ⟨by simp [countArchive], by simp [countReply]⟩
  · have h2 : (process_mention e s' m2).2 = [] :=
      pm_orig_processed_silent e s' m2 oid ho2 (hsub ho1mem)
    rw [h2, List.append_nil]
    rcases hsh1 with h1 | ⟨txt, h1⟩ <;> rw [h1] <;>
      exact ⟨by simp [countArchive], by simp [countReply]⟩

/-- Environment for the C3 witness: detection yields `fr`, translation and
archive upload succeed, so the first mention really does archive and reply
once. -/
def envC3 : Env :=
  { getTweet := fun _ => some ⟨"hola".toList, false, 7⟩
    mediaUrl := fun _ => none
    ocr := fun _ => none
    detectKey := some "k".toList
    singleDetection := fun _ => some "fr".toList
    translate := fun _ _ => some "hi".toList
    archiveEnabled := true
    upload := fun _ _ _ _ => some "u".toList }

def mentionC3a : Mention := ⟨3, [⟨"replied_to".toList, 2⟩]⟩

def mentionC3b : Mention := ⟨4, [⟨"replied_to".toList, 2⟩]⟩

/-- Witness for C3 at two concrete mentions replying to the same original. -/
theorem C3_witness :
    mentionC3a.id ≠ mentionC3b.id ∧
    originalTweetId mentionC3a = some 2 ∧
    originalTweetId mentionC3b = some 2 ∧
    (countArchive 2 ((process_mention envC3 ⟨[], []⟩ mentionC3a).2 ++
        (process_mention envC3 (process_mention envC3 ⟨[], []⟩ mentionC3a).1 mentionC3b).2) ≤ 1 ∧
     countReply 2 ((process_mention envC3 ⟨[], []⟩ mentionC3a).2 ++
        (process_mention envC3 (process_mention envC3 ⟨[], []⟩ mentionC3a).1 mentionC3b).2) ≤ 1) :=
  ⟨by decide, by decide, by decide,
   C3_no_duplicate_archive envC3 ⟨[], []⟩ (process_mention envC3 ⟨[], []⟩ mentionC3a).1
     mentionC3a mentionC3b 2 (by decide) (by decide) (by decide) (fun _ h => h)⟩

/-- C4 (amended): when language detection returns `None` for a mention's
extracted text, the code takes the `else` branch ("No translation needed")
and the item IS marked processed — both the mention id and the original
tweet id are added to `processed_mentions` (with no publish/reply/archive
action), so the item is not retried on the next cycle. -/
theorem C4_amended (e : Env) (s : BotState) (m : Mention) (oid : Nat) (tw : Tweet)
    (h1 : m.id ∉ s.processedMentions) (ho : originalTweetId m = some oid)
    (hz : oid ≠ 0) (h2 : oid ∉ s.processedMentions)
    (hg : e.getTweet oid = some tw)
    (hd : detectLang e (extractedText e tw oid) = none) :
    (process_mention e s m).2 = [] ∧
    m.id ∈ (process_mention e s m).1.processedMentions ∧
    oid ∈ (process_mention e s m).1.processedMentions := by
  rw [pm_eval_commit_detect_falsy e s m oid tw h1 ho hz h2 hg hd]
  exact ⟨rfl, mem_commitBoth_mid _ _ _, mem_commitBoth_oid _ _ _⟩

/-- Environment for the C4 counterexample and witness: no detection API key
is configured, so `detect_language` returns `None` on every text. -/
def envC4 : Env :=
  { getTweet := fun _ => some ⟨"hola".toList, false, 7⟩
    mediaUrl := fun _ => none
    ocr := fun _ => none
    detectKey := none
    singleDetection := fun _ => none
    translate := fun _ _ => none
    archiveEnabled := true
    upload := fun _ _ _ _ => none }

def mentionC4 : Mention := ⟨3, [⟨"replied_to".toList, 2⟩]⟩

/-- C4 (counterexample): with detection failing (`None`), processing the
mention adds both the mention id 3 and the original tweet id 2 to
`processed_mentions`, contradicting the claim that neither id is added and
the item is retried. -/
theorem C4_counterexample :
    detectLang envC4 (extractedText envC4 ⟨"hola".toList, false, 7⟩ 2) = none ∧
    3 ∈ (process_mention envC4 ⟨[], []⟩ mentionC4).1.processedMentions ∧
    2 ∈ (process_mention envC4 ⟨[], []⟩ mentionC4).1.processedMentions := by
  refine ⟨by decide, by decide, by decide⟩

/-- Witness for C4 (amended) at the concrete detection-failure input. -/
theorem C4_witness :
    ((3 : Nat) ∉ ([] : List Nat)) ∧
    originalTweetId mentionC4 = some 2 ∧
    envC4.getTweet 2 = some ⟨"hola".toList, false, 7⟩ ∧
    detectLang envC4 (extractedText envC4 ⟨"hola".toList, false, 7⟩ 2) = none ∧
    ((process_mention envC4 ⟨[], []⟩ mentionC4).2 = [] ∧
     3 ∈ (process_mention envC4 ⟨[], []⟩ mentionC4).1.processedMentions ∧
     2 ∈ (process_mention envC4 ⟨[], []⟩ mentionC4).1.processedMentions) :=
  ⟨by decide, by decide, by decide, by decide,
   C4_amended envC4 ⟨[], []⟩ mentionC4 2 ⟨"hola".toList, false, 7⟩
     (by decide) (by decide) (by decide) (by decide) (by decide) (by decide)⟩

/-- Environment for the C5 failing input: detection yields `fr`, translation
succeeds, archiving is enabled, but `upload_translation` returns no URL. -/
def envC5 : Env :=
  { getTweet := fun _ => some ⟨"hola".toList, false, 7⟩
    mediaUrl := fun _ => none
    ocr := fun _ => none
    detectKey := some "k".toList
    singleDetection := fun _ => some "fr".toList
    translate := fun _ _ => some "hi".toList
    archiveEnabled := true
    upload := fun _ _ _ _ => none }

def mentionC5 : Mention := ⟨3, [⟨"replied_to".toList, 2⟩]⟩

/-- C5 (code behaviour at the failing input): the archive upload fails (no
URL), so no reply is posted — but, because `process_mention` ignores the
Boolean result of `_upload_to_archive`, both the mention id 3 and the
original tweet id 2 are still added to `processed_mentions`, so the archive
step is never retried.  This contradicts the claim (and §4.4 of the spec),
whose intent the `_upload_to_archive` success flag plainly encodes. -/
theorem C5_code_behavior :
    (process_mention envC5 ⟨[], []⟩ mentionC5).2 = [Action.archiveUpload 2] ∧
    3 ∈ (process_mention envC5 ⟨[], []⟩ mentionC5).1.processedMentions ∧
    2 ∈ (process_mention envC5 ⟨[], []⟩ mentionC5).1.processedMentions ∧
    countReply 2 (process_mention envC5 ⟨[], []⟩ mentionC5).2 = 0 := by
  refine ⟨by decide, by decide, by decide, by decide⟩

end XBot
